import Mathlib

/-!
Verification of the ComplexPrimitives implicit-shape engine.

This file gives a shallow embedding, over the real numbers, of the parts of
the source that the claims concern:

* `src/utils/affine.js` — the 2D affine algebra (`determinant`, `isInvertible`,
  `invertAffine`, `makeAffine`, `applyAffineToPoint`);
* `src/utils/SDFBlending.js` — the R-function blend algebra (`weightedRUnion`,
  `weightedRIntersection`, `weightedRDifference`, `createCompositeSDF`,
  `createBlendedPrimitive`);
* `src/primitives/SchurComposition.js` — the composition node: parameter
  update, lazy initialization, and SDF evaluation with the call-stack guard;
* `src/primitives/ComplexShape2D.js` — the leaf line primitive and its
  call-stack guard;
* `src/utils/meshCreator.js` — the marching-squares sampler, its per-cell
  crossing interpolation, and the contour tracer;
* `src/state/stateStore.js` — the dependency map, the recursive DFS cycle
  check `_hasCycle`, and `triggerVisualUpdate`.

JavaScript numbers are modelled as real numbers; `Math.pow` is modelled by
`Real.rpow`, `Math.sqrt` by `Real.sqrt`, `Math.hypot` by the Euclidean norm
formula.  The distinguished `Infinity` results of the SDF evaluators are
modelled in `EReal`, with finite values coerced from `ℝ`.  JavaScript
exceptions are modelled by `Option` results where a claim depends on them.
Mutable call-stack arrays (push / splice) are modelled by explicit list
passing, returning the final list.
-/

namespace CP

noncomputable section

open Classical

/-- A 2D point, as the plain `{x, y}` objects of the source. -/
structure Point where
  x : ℝ
  y : ℝ

/-- An affine transform, the six scalars of `utils/affine.js`. -/
structure Affine where
  a : ℝ
  b : ℝ
  c : ℝ
  d : ℝ
  tx : ℝ
  ty : ℝ

/-- The identity matrix (`identity` in `utils/affine.js`). -/
def identityAffine : Affine := ⟨1, 0, 0, 1, 0, 0⟩

/-- `determinant` from `utils/affine.js`: `a * d - b * c`. -/
def determinant (M : Affine) : ℝ := M.a * M.d - M.b * M.c

/-- `Number.EPSILON` of JavaScript, which `isInvertible` compares against. -/
def numberEpsilon : ℝ := 1 / 2 ^ 52

/-- `isInvertible` from `utils/affine.js`: `|det M| > Number.EPSILON`. -/
def isInvertible (M : Affine) : Prop := |determinant M| > numberEpsilon

/-- `invertAffine` from `utils/affine.js`.  The source throws on a singular
matrix; here the defining formula is taken over `ℝ` (real division is total),
and the theorems that use it carry a nonzero-determinant hypothesis. -/
def invertAffine (M : Affine) : Affine :=
  let invDet := 1 / determinant M
  ⟨M.d * invDet, -M.b * invDet, -M.c * invDet, M.a * invDet,
    (M.b * M.ty - M.d * M.tx) * invDet, (M.c * M.tx - M.a * M.ty) * invDet⟩

/-- `makeAffine({rotation, scale, translate})` from `utils/affine.js`. -/
def makeAffine (rotation s : ℝ) (translate : Point) : Affine :=
  let cos := Real.cos rotation * s
  let sin := Real.sin rotation * s
  ⟨cos, -sin, sin, cos, translate.x, translate.y⟩

/-- `applyAffineToPoint` from `utils/affine.js`, the canonical evaluation
`x' = a x + b y + tx`, `y' = c x + d y + ty`. -/
def applyAffineToPoint (pt : Point) (M : Affine) : Point :=
  ⟨M.a * pt.x + M.b * pt.y + M.tx, M.c * pt.x + M.d * pt.y + M.ty⟩

/-! ### SDF blend algebra (`src/utils/SDFBlending.js`)

`Math.pow` is modelled by `Real.rpow` (the `ℝ → ℝ → ℝ` power of Mathlib).
For a negative base and a non-integer exponent JavaScript produces `NaN`;
`Real.rpow` gives a (different) junk value there.  The blend operators are
only meaningful on the domain where both agree with real powers. -/

/-- `weightedRUnion(sdf1, sdf2, p)`: smooth union, falling back to `min`
when `p <= 0`. -/
def weightedRUnion (sdf1 sdf2 p : ℝ) : ℝ :=
  if p ≤ 0 then min sdf1 sdf2
  else sdf1 + sdf2 - (sdf1 ^ p + sdf2 ^ p) ^ (1 / p)

/-- `weightedRIntersection(sdf1, sdf2, p)`: smooth intersection, falling back
to `max` when `p <= 0`. -/
def weightedRIntersection (sdf1 sdf2 p : ℝ) : ℝ :=
  if p ≤ 0 then max sdf1 sdf2
  else sdf1 + sdf2 + (sdf1 ^ p + sdf2 ^ p) ^ (1 / p)

/-- `weightedRDifference(sdf1, sdf2, p) = weightedRIntersection(sdf1, -sdf2, p)`. -/
def weightedRDifference (sdf1 sdf2 p : ℝ) : ℝ :=
  weightedRIntersection sdf1 (-sdf2) p

/-- The blend operation names accepted by `createCompositeSDF`. -/
inductive Op where
  | union
  | intersection
  | difference
deriving DecidableEq

/-- The blend strategy names of `SchurComposition` (`compositeFn`). -/
inductive Strategy where
  | sequential
  | balanced
  | nested
deriving DecidableEq

/-- `distanceToEdge` from `src/primitives/ComplexShape2D.js`: Euclidean
distance from a point to the segment between two vertices. -/
def distanceToEdge (vA vB pt : Point) : ℝ :=
  let dx := pt.x - vA.x
  let dy := pt.y - vA.y
  let edgeX := vB.x - vA.x
  let edgeY := vB.y - vA.y
  let edgeLengthSquared := edgeX * edgeX + edgeY * edgeY
  if edgeLengthSquared = 0 then Real.sqrt (dx * dx + dy * dy)
  else
    let t := max 0 (min 1 ((dx * edgeX + dy * edgeY) / edgeLengthSquared))
    let closestX := vA.x + t * edgeX
    let closestY := vA.y + t * edgeY
    Real.sqrt ((pt.x - closestX) ^ 2 + (pt.y - closestY) ^ 2)

/-- A primitive object as consumed by the blending layer, identified only by
its duck-typed surface.
* `seg vA vB` is a blend-free `ComplexShape2D` line primitive: it owns a
  vertex array `[vA, vB]` and its `computeSDF` is the distance to its single
  edge, independent of call stack, time and depth (see
  `ComplexShape2D.computeSDF`: with no blend primitives both the guard branch
  and the normal branch return the base SDF).
* `blend f` is the record returned by `createBlendedPrimitive`: it has no
  vertex array, and its `computeSDF(point, ...)` ignores every argument
  except the point.
* `withOffset q δ` is a primitive whose `computeSDF` was re-bound by
  `SchurComposition._calculateSDFOffset` to add the offset `δ`. -/
inductive Prim where
  | seg (vA vB : Point)
  | blend (f : Point → ℝ)
  | withOffset (q : Prim) (δ : ℝ)

/-- The `computeSDF(point)` surface of a `Prim`. -/
def Prim.sdf : Prim → Point → ℝ
  | .seg vA vB, pt => distanceToEdge vA vB pt
  | .blend f, pt => f pt
  | .withOffset q δ, pt => q.sdf pt + δ

/-- The body of the loop of `createCompositeSDF`: starting from the
accumulated `result` and the 1-based index `i`, combine the remaining
primitives.  The source skips the combination exactly when the operation is
`difference` and `i` is not `> 1`. -/
def compositeLoop (op : Op) (p : ℝ) (pt : Point) : ℝ → ℕ → List Prim → ℝ
  | result, _, [] => result
  | result, i, q :: rest =>
      let combineFunc := match op with
        | .union => weightedRUnion
        | .intersection => weightedRIntersection
        | .difference => weightedRDifference
      let result' :=
        if (op = .difference ∧ i > 1) ∨ op ≠ .difference then
          combineFunc result (q.sdf pt) p
        else result
      compositeLoop op p pt result' (i + 1) rest

/-- `createCompositeSDF(primitives, p, operation)` from
`src/utils/SDFBlending.js`, as a function of the evaluation point.  The
source returns `Infinity` on an empty primitive list; the claims below only
concern non-empty lists, and the real-valued model returns `0` there. -/
def createCompositeSDF (primitives : List Prim) (p : ℝ) (operation : Op)
    (pt : Point) : ℝ :=
  match primitives with
  | [] => 0
  | [q] => q.sdf pt
  | q :: rest => compositeLoop operation p pt (q.sdf pt) 1 rest

/-- `createBlendedPrimitive(primitives, params)`: builds the composite record
whose `computeSDF` is `createCompositeSDF(primitives, smoothness, operation)`.
The `params.smoothness || 8` default of the source maps `0` (falsy) to `8`.
The metric, color and transform members of the returned record play no role
in any claim and are not modelled. -/
def createBlendedPrimitive (primitives : List Prim) (smoothness : ℝ)
    (operation : Op) : Prim :=
  .blend (createCompositeSDF primitives (if smoothness = 0 then 8 else smoothness) operation)

/-! ### The leaf primitive `ComplexShape2D` (`src/primitives/ComplexShape2D.js`)

The model covers the state consumed by `computeSDF`: the id, the single edge
built from the two vertices, and the blend parameters.  Logging and the
rendering methods are omitted.  `blendPrimitives` is the
`blendParams.primitives` array after the constructor filter removing the
shape itself; the filter repeated inside `getCompositeSdfValue` is therefore
the identity here.  SDF results are `EReal` values: the `Infinity` sentinels
of the source are `⊤`, finite results are coerced reals. -/

structure Shape2D where
  id : ℕ
  vA : Point
  vB : Point
  blendPrimitives : List Prim
  operation : Op
  smoothness : ℝ
  basePrimitive : Option Prim
  compositeSDF : Option (Point → ℝ)

/-- `calculateBaseSDF(point, time, depth)`: distance to the first (only)
edge.  The `edges` array of a constructed shape always holds exactly the
edge from `vA` to `vB`, so the empty-edges `Infinity` branch of the source
is not reachable and not modelled. -/
def Shape2D.calculateBaseSDF (s : Shape2D) (pt : Point) (_time : ℝ) (_depth : ℕ) : ℝ :=
  distanceToEdge s.vA s.vB pt

/-- `getCompositeSdfValue(point, callStack, time, depth)`.  The `Infinity`
fallbacks of the source (missing composite function, no primitives, caught
exception) are `⊤`. -/
def Shape2D.getCompositeSdfValue (s : Shape2D) (pt : Point) (_callStack : List ℕ)
    (_time : ℝ) (_depth : ℕ) : EReal :=
  match s.compositeSDF with
  | none => ⊤
  | some f =>
      match s.blendPrimitives with
      | [] => ⊤
      | [p] => ((p.sdf pt : ℝ) : EReal)
      | _ => ((f pt : ℝ) : EReal)

/-- Lift of a real blend operator to a possibly infinite composite operand.
The infinite cases only arise from degenerate blend states that no claim
reaches; the source would produce `NaN` there for `p > 0`, which has no real
model, so the lift returns `⊤`. -/
def liftBlend2 (f : ℝ → ℝ → ℝ → ℝ) (a : ℝ) (b : EReal) (p : ℝ) : EReal :=
  if b = ⊤ ∨ b = ⊥ then ⊤ else ((f a b.toReal p : ℝ) : EReal)

/-- `ComplexShape2D.computeSDF(point, callStack, time, depth)` from
`src/primitives/ComplexShape2D.js` lines 157 to 193.  When the own id is
already on the call stack the source returns `calculateBaseSDF`, not
`Infinity`. -/
def Shape2D.computeSDF (s : Shape2D) (pt : Point) (callStack : List ℕ)
    (time : ℝ) (depth : ℕ) : EReal :=
  if s.id ∈ callStack then ((s.calculateBaseSDF pt time depth : ℝ) : EReal)
  else
    let newCallStack := callStack ++ [s.id]
    let baseSDF := s.calculateBaseSDF pt time depth
    if s.blendPrimitives = [] then ((baseSDF : ℝ) : EReal)
    else
      match s.compositeSDF with
      | none => ((baseSDF : ℝ) : EReal)
      | some _ =>
          let compositeSdfValue := s.getCompositeSdfValue pt newCallStack time depth
          match s.operation with
          | .union => liftBlend2 weightedRUnion baseSDF compositeSdfValue s.smoothness
          | .intersection => liftBlend2 weightedRIntersection baseSDF compositeSdfValue s.smoothness
          | .difference =>
              if s.basePrimitive.isSome then compositeSdfValue
              else liftBlend2 weightedRDifference baseSDF compositeSdfValue s.smoothness

/-! ### The composition node `SchurComposition` (`src/primitives/SchurComposition.js`)

The model follows the first (logger-based) version of the file, the one the
claims cite.  Base shapes and the blended output are `Prim` values; the
rendering step 6 of `_initializeComposition` (`updateSDF`,
`generateContours`) tests for methods that none of the modelled primitives
carry and alters no modelled field, so it is a no-op here.  The dependency
registration performed through the global `stateStore` is outside the node
state and is modelled separately with the state store. -/

structure SchurNode where
  id : ℕ
  rotation : ℝ
  scale : ℝ
  position : Point
  operations : List Op
  weights : List ℝ
  compositeFn : Strategy
  baseShapes : List Prim
  transformedShapes : List Prim
  T : Option Affine
  Tinv : Option Affine
  needsUpdate : Bool
  scaleFactor : ℝ
  sdfOffset : ℝ
  shapes : List Prim

/-- `_cloneAndTransform`: clone each base shape and transform its vertices
by `T`.  A cloned shape without a vertex array (any non-`seg` primitive) is
logged and dropped (`return null` plus the final `filter`). -/
def cloneAndTransform (T : Affine) (baseShapes : List Prim) : List Prim :=
  baseShapes.filterMap fun shape =>
    match shape with
    | .seg vA vB => some (.seg (applyAffineToPoint vA T) (applyAffineToPoint vB T))
    | _ => none

/-- The loop of `_createSequential`, with the running result and the
operation index. -/
def createSequentialLoop (ops : List Op) (ws : List ℝ) : Prim → ℕ → List Prim → Prim
  | result, _, [] => result
  | result, opIdx, s :: rest =>
      let op := ops.getD (opIdx % ops.length) .union
      let w := ws.getD (opIdx % ws.length) 8
      createSequentialLoop ops ws (createBlendedPrimitive [result, s] w op) (opIdx + 1) rest

/-- `_createSequential`: left-to-right fold through `createBlendedPrimitive`,
operation and weight selected by `opIdx mod length`.  Out-of-range list
reads (empty operation or weight lists) give the defaults `union` and `8`;
the source would read `undefined` there. -/
def createSequential (ops : List Op) (ws : List ℝ) (shapes : List Prim) : Option Prim :=
  match shapes with
  | [] => none
  | s :: rest => some (createSequentialLoop ops ws s 0 rest)

/-- `_createBalanced`: recursive midpoint split into a binary blend tree. -/
def createBalanced (ops : List Op) (ws : List ℝ) (shapes : List Prim)
    (start e : ℕ) : Option Prim :=
  if e < start then none
  else if start = e then shapes.get? start
  else
    let mid := (start + e) / 2
    let left := createBalanced ops ws shapes start mid
    let right := createBalanced ops ws shapes (mid + 1) e
    match left, right with
    | none, right => right
    | some l, none => some l
    | some l, some r =>
        let idx := Nat.log2 (e - start + 1) % ops.length
        some (createBlendedPrimitive [l, r] (ws.getD (idx % ws.length) 8)
          (ops.getD (idx % ops.length) .union))
termination_by e - start
decreasing_by
  all_goals omega

/-- The loop of `_createNested`, with the running result and the 1-based
index. -/
def createNestedLoop (ops : List Op) (ws : List ℝ) : Prim → ℕ → List Prim → Prim
  | result, _, [] => result
  | result, i, s :: rest =>
      let idx := (i - 1) % ops.length
      let op := ops.getD idx .union
      let w := ws.getD (idx % ws.length) 8
      let pair := if op = .difference then [s, result] else [result, s]
      createNestedLoop ops ws (createBlendedPrimitive pair w op) (i + 1) rest

/-- `_createNested`: fold where for `difference` the operand pair is
swapped, so the new child is subtracted from the accumulator. -/
def createNested (ops : List Op) (ws : List ℝ) (shapes : List Prim) : Option Prim :=
  match shapes with
  | [] => none
  | s :: rest => some (createNestedLoop ops ws s 1 rest)

/-- `_blendInBlendSpace`: dispatch on the strategy; `null` on no shapes, the
unique shape itself on a singleton list. -/
def blendInBlendSpace (ops : List Op) (ws : List ℝ) (strategy : Strategy)
    (transformedShapes : List Prim) : Option Prim :=
  match transformedShapes with
  | [] => none
  | [s] => some s
  | _ =>
      match strategy with
      | .balanced => createBalanced ops ws transformedShapes 0 (transformedShapes.length - 1)
      | .nested => createNested ops ws transformedShapes
      | .sequential => createSequential ops ws transformedShapes

/-- `_inverseTransform` applied to the blended primitive: transform the
vertex array by `T⁻¹` when there is one (`seg`); the blended records carry
no vertex array and pass through unchanged. -/
def inverseTransformPrim (Tinv : Affine) : Prim → Prim
  | .seg vA vB => .seg (applyAffineToPoint vA Tinv) (applyAffineToPoint vB Tinv)
  | p => p

/-- Least element of a list of reals (`Math.min` folded over the samples);
`0` for the empty list, which the callers never produce. -/
def listMin : List ℝ → ℝ
  | [] => 0
  | x :: xs => xs.foldl min x

/-- Greatest element of a list of reals. -/
def listMax : List ℝ → ℝ
  | [] => 0
  | x :: xs => xs.foldl max x

/-- The 11 by 11 sample points of `_calculateSDFOffset`: `boundSize = 5`,
`steps = 10`, `x = -5 + 10 i / 10`, `y = -5 + 10 j / 10`, outer loop on `i`. -/
def offsetSamplePoints : List Point :=
  (List.range 11).flatMap fun (i : ℕ) =>
    (List.range 11).map fun (j : ℕ) =>
      ⟨-5 + 2 * 5 * (i : ℝ) / 10, -5 + 2 * 5 * (j : ℝ) / 10⟩

/-- `_calculateSDFOffset`: sample the head shape on the grid, offset the
field so that it crosses zero, boost the scale factor if the sampled range
is degenerate, and wrap the head shape with the offset.  The `isFinite`
filter of the source is the identity on real samples. -/
def calculateSDFOffset (n : SchurNode) : SchurNode :=
  match n.shapes with
  | [] => n
  | s :: rest =>
      let sdfValues := offsetSamplePoints.map fun pt => s.sdf pt
      let minSDF := listMin sdfValues
      let maxSDF := listMax sdfValues
      let offset := if 0 < minSDF then -minSDF - 0.1
        else if maxSDF < 0 then -maxSDF + 0.1
        else 0
      let sf := if |maxSDF - minSDF| < 0.1 then n.scaleFactor * 10 else n.scaleFactor
      let shapes' := if offset ≠ 0 then Prim.withOffset s offset :: rest else s :: rest
      { n with sdfOffset := offset, scaleFactor := sf, shapes := shapes' }

/-- `_initializeComposition` from `src/primitives/SchurComposition.js`
lines 125 to 225.  The `try`/`catch` of the source never fires in the model
(all modelled operations are total), so the error fallback is unreachable;
the `null`-blend fallback keeps the dirty flag set exactly as the source
does. -/
def initComp (n : SchurNode) : SchurNode :=
  if n.baseShapes = [] then { n with shapes := [] }
  else if n.needsUpdate = false ∧ n.T.isSome ∧ n.Tinv.isSome then n
  else
    let safeScale := max |n.scale| 0.0001
    let T0 := makeAffine n.rotation safeScale n.position
    let T := if ¬ isInvertible T0 then identityAffine else T0
    let scaleFactor := if ¬ isInvertible T0 then 1
      else Real.sqrt |T0.a * T0.d - T0.b * T0.c|
    let Tinv := invertAffine T
    let ts := cloneAndTransform T n.baseShapes
    let n1 := { n with T := some T, Tinv := some Tinv, scaleFactor := scaleFactor,
                       transformedShapes := ts }
    match blendInBlendSpace n1.operations n1.weights n1.compositeFn ts with
    | none =>
        { n1 with shapes := match n1.baseShapes with
            | [] => []
            | s :: _ => [s] }
    | some blended =>
        let blended := inverseTransformPrim Tinv blended
        let n2 := calculateSDFOffset { n1 with shapes := [blended] }
        { n2 with needsUpdate := false }

/-- `SchurComposition.computeSDF(point, callStack, time, depth)` from
`src/primitives/SchurComposition.js` lines 532 to 581.  The result is the
returned value (`none` models a thrown `TypeError` from a missing `_Tinv`)
paired with the final contents of the caller-supplied call stack array
(`push` appends the id, the `finally` block splices out its first
occurrence).  The inner shape is a `Prim`, whose `computeSDF` ignores the
call stack, so the stack seen by the inner call is unchanged by it. -/
def SchurNode.computeSDF (n : SchurNode) (pt : Point) (callStack : List ℕ)
    (_time : ℝ) (_depth : ℕ) : Option EReal × List ℕ :=
  let n := if n.needsUpdate then initComp n else n
  match n.shapes with
  | [] => (some ⊤, callStack)
  | shape :: _ =>
      if n.id ∈ callStack then (some ⊤, callStack)
      else
        let pushed := callStack ++ [n.id]
        match n.Tinv with
        | none => (none, pushed.erase n.id)
        | some M =>
            let transformedPoint : Point :=
              ⟨M.a * pt.x + M.c * pt.y + M.tx, M.b * pt.x + M.d * pt.y + M.ty⟩
            let sdfValue := shape.sdf transformedPoint
            (some ((sdfValue / n.scaleFactor - 0.5 : ℝ) : EReal), pushed.erase n.id)

/-- `updateParameters(params)` from `src/primitives/SchurComposition.js`
lines 70 to 119: merge the provided fields, detect changes, and on any
change mark the node dirty and recompose immediately.  Returns the updated
node and the `changed` flag the source returns.  The dependency-map update
sent to the global state store is modelled with the state store itself. -/
structure UpdateParams where
  rotation : Option ℝ := none
  scale : Option ℝ := none
  position : Option Point := none
  operations : Option (List Op) := none
  weights : Option (List ℝ) := none
  compositeFn : Option Strategy := none
  shapes : Option (List Prim) := none

/-- The merge phase of `updateParameters`: the node with provided fields
written, and the `changed` flag. -/
def mergeParams (n : SchurNode) (p : UpdateParams) : SchurNode × Bool :=
  let st := (n, false)
  let st := match p.rotation with
    | some r => if r ≠ st.1.rotation then ({ st.1 with rotation := r }, true) else st
    | none => st
  let st := match p.scale with
    | some s => if s ≠ st.1.scale then ({ st.1 with scale := s }, true) else st
    | none => st
  let st := match p.position with
    | some q =>
        if q.x ≠ st.1.position.x ∨ q.y ≠ st.1.position.y then ({ st.1 with position := q }, true)
        else st
    | none => st
  let st := match p.operations with
    | some os => ({ st.1 with operations := os }, true)
    | none => st
  let st := match p.weights with
    | some ws => ({ st.1 with weights := ws }, true)
    | none => st
  let st := match p.compositeFn with
    | some f => if f ≠ st.1.compositeFn then ({ st.1 with compositeFn := f }, true) else st
    | none => st
  let st := match p.shapes with
    | some ss => ({ st.1 with baseShapes := ss }, true)
    | none => st
  st

def updateParameters (n : SchurNode) (p : UpdateParams) : SchurNode × Bool :=
  let st := mergeParams n p
  if st.2 then (initComp { st.1 with needsUpdate := true }, true)
  else (st.1, false)

/-! ### Marching squares (`src/utils/meshCreator.js`)

`marchingSquares(sdfFn, bounds, resolution)` is modelled in full: the
`(resolution+1)²` sample grid, the two early returns, the per-cell crossing
interpolation, and the east-scanning contour tracer with its
`2·resolution²` iteration cap.  The `corners` table is transcribed exactly
as written in the source, including its duplicated `[0, 3]` rows. -/

structure Bounds where
  xmin : ℝ
  ymin : ℝ
  xmax : ℝ
  ymax : ℝ

/-- Grid spacing `dx = (xmax - xmin) / resolution`. -/
def msDx (bd : Bounds) (res : ℕ) : ℝ := (bd.xmax - bd.xmin) / res

/-- Grid spacing `dy = (ymax - ymin) / resolution`. -/
def msDy (bd : Bounds) (res : ℕ) : ℝ := (bd.ymax - bd.ymin) / res

/-- The precomputed grid of SDF values: row `j` holds the samples at
`y = ymin + j dy`, entry `i` at `x = xmin + i dx`, for `0 ≤ i, j ≤ res`. -/
def msGrid (f : Point → ℝ) (bd : Bounds) (res : ℕ) : List (List ℝ) :=
  (List.range (res + 1)).map fun (j : ℕ) =>
    (List.range (res + 1)).map fun (i : ℕ) =>
      f ⟨bd.xmin + (i : ℝ) * msDx bd res, bd.ymin + (j : ℝ) * msDy bd res⟩

/-- Read `grid[j][i]`; out-of-range reads (which the source never makes)
give `0`. -/
def gridVal (grid : List (List ℝ)) (j i : ℕ) : ℝ := (grid.getD j []).getD i 0

/-- The marching-squares edge table of the source: for each of the 16 corner
cases, the crossed edge pairs.  Cases 5 and 10 are the ambiguous saddles
with two pairs; cases 0 and 15 are absent. -/
def edgeTable : ℕ → List (ℕ × ℕ)
  | 1 => [(3, 0)]
  | 2 => [(0, 1)]
  | 3 => [(3, 1)]
  | 4 => [(1, 2)]
  | 5 => [(3, 2), (1, 0)]
  | 6 => [(0, 2)]
  | 7 => [(3, 2)]
  | 8 => [(2, 3)]
  | 9 => [(2, 0)]
  | 10 => [(2, 1), (3, 0)]
  | 11 => [(2, 1)]
  | 12 => [(1, 3)]
  | 13 => [(1, 0)]
  | 14 => [(0, 3)]
  | _ => []

/-- The `corners` array of the crossing computation, exactly as in the
source: `[[0, 3], [1, 2], [2, 3], [0, 3]]` — the rows for edge 0 (bottom)
and edge 3 (left) are both `[0, 3]`. -/
def cornersTable : ℕ → ℕ × ℕ
  | 0 => (0, 3)
  | 1 => (1, 2)
  | 2 => (2, 3)
  | 3 => (0, 3)
  | _ => (0, 0)

/-- `interpolate(edge, i, j, value1, value2)`: linear interpolation factor
`t = value1 / (value1 - value2)`, placed on the geometric edge of cell
`(i, j)` selected by `edge`. -/
def interpolate (bd : Bounds) (res : ℕ) (edge i j : ℕ) (value1 value2 : ℝ) : Point :=
  let dx := msDx bd res
  let dy := msDy bd res
  let t := value1 / (value1 - value2)
  match edge with
  | 0 => ⟨bd.xmin + ((i : ℝ) + t) * dx, bd.ymin + (j : ℝ) * dy⟩
  | 1 => ⟨bd.xmin + ((i : ℝ) + 1) * dx, bd.ymin + ((j : ℝ) + t) * dy⟩
  | 2 => ⟨bd.xmin + ((i : ℝ) + 1 - t) * dx, bd.ymin + ((j : ℝ) + 1) * dy⟩
  | 3 => ⟨bd.xmin + (i : ℝ) * dx, bd.ymin + ((j : ℝ) + 1 - t) * dy⟩
  | _ => ⟨0, 0⟩

/-- The case index of a cell: bit `k` set iff corner value `k` is negative,
corners ordered bottom-left, bottom-right, top-right, top-left. -/
def cellCaseIndex (v0 v1 v2 v3 : ℝ) : ℕ :=
  (if v0 < 0 then 1 else 0) + (if v1 < 0 then 2 else 0) +
    (if v2 < 0 then 4 else 0) + (if v3 < 0 then 8 else 0)

/-- The interpolated crossing segments of cell `(i, j)`: for each edge pair
of the case, both endpoints are interpolated from the corner values selected
by `cornersTable`. -/
def cellEdges (bd : Bounds) (res : ℕ) (grid : List (List ℝ)) (i j : ℕ) :
    List (Point × Point) :=
  let values : List ℝ :=
    [gridVal grid j i, gridVal grid j (i + 1), gridVal grid (j + 1) (i + 1),
      gridVal grid (j + 1) i]
  let caseIndex := cellCaseIndex (values.getD 0 0) (values.getD 1 0)
    (values.getD 2 0) (values.getD 3 0)
  (edgeTable caseIndex).map fun pr =>
    let c12 := cornersTable pr.1
    let pt1 := interpolate bd res pr.1 i j (values.getD c12.1 0) (values.getD c12.2 0)
    let c34 := cornersTable pr.2
    let pt2 := interpolate bd res pr.2 i j (values.getD c34.1 0) (values.getD c34.2 0)
    (pt1, pt2)

/-- `cellCrossings[j][i]`, the crossing segments of every cell. -/
def cellCrossings (bd : Bounds) (res : ℕ) (grid : List (List ℝ)) :
    List (List (List (Point × Point))) :=
  (List.range res).map fun j => (List.range res).map fun i => cellEdges bd res grid i j

/-- The neighbor scan of the tracer: walk the east cell edge pairs in order
from index `ne`, skipping visited keys, and return the first pair one of
whose endpoints is within `dx/2` of the last contour point, together with
the point to append (the other endpoint) and the matching index. -/
def scanNeighbor (visited : List (ℕ × ℕ × ℕ)) (halfDx : ℝ) (last : Point)
    (iN jN : ℕ) : ℕ → List (Point × Point) → Option (Point × ℕ)
  | _, [] => none
  | ne, (p1, p2) :: rest =>
      if (iN, jN, ne) ∈ visited then scanNeighbor visited halfDx last iN jN (ne + 1) rest
      else
        let d1 := Real.sqrt ((p1.x - last.x) ^ 2 + (p1.y - last.y) ^ 2)
        let d2 := Real.sqrt ((p2.x - last.x) ^ 2 + (p2.y - last.y) ^ 2)
        if d1 < halfDx then some (p2, ne)
        else if d2 < halfDx then some (p1, ne)
        else scanNeighbor visited halfDx last iN jN (ne + 1) rest

/-- The bounded tracing loop: while the iteration cap is not reached, look
for a continuation in the cell to the east; stop at the first miss. -/
def traceLoop (cells : List (List (List (Point × Point)))) (res : ℕ) (halfDx : ℝ) :
    ℕ → List Point → List (ℕ × ℕ × ℕ) → ℕ → ℕ → List Point × List (ℕ × ℕ × ℕ)
  | 0, contour, visited, _, _ => (contour, visited)
  | fuel + 1, contour, visited, currI, currJ =>
      if currI + 1 < res then
        let neighborEdges := (cells.getD currJ []).getD (currI + 1) []
        let lastPoint := contour.getLast?.getD ⟨0, 0⟩
        match scanNeighbor visited halfDx lastPoint (currI + 1) currJ 0 neighborEdges with
        | some (pt, ne) =>
            traceLoop cells res halfDx fuel (contour ++ [pt])
              ((currI + 1, currJ, ne) :: visited) (currI + 1) currJ
        | none => (contour, visited)
      else (contour, visited)

/-- The outer contour-collection loops: every unvisited edge pair of every
cell starts a contour of its two endpoints, is traced with fuel
`res · res · 2` (the `MAX_ITERATIONS` cap), and is kept iff it has more
than two points. -/
def traceCells (cells : List (List (List (Point × Point)))) (res : ℕ)
    (halfDx : ℝ) : List (List Point) :=
  ((List.range res).foldl (fun st j =>
    (List.range res).foldl (fun st i =>
      (((cells.getD j []).getD i []).enum).foldl (fun st epair =>
        let e := epair.1
        let pair := epair.2
        if (i, j, e) ∈ st.2 then st
        else
          let visited := (i, j, e) :: st.2
          let traced := traceLoop cells res halfDx (res * res * 2)
            [pair.1, pair.2] visited i j
          (if 2 < traced.1.length then st.1 ++ [traced.1] else st.1, traced.2))
        st) st) ([], [])).1

/-- `marchingSquares(sdfFn, bounds, resolution)` from
`src/utils/meshCreator.js`: sample, return `[]` when the sampled minimum and
maximum satisfy `(min ≥ 0 ∧ max ≥ 0) ∨ (min ≤ 0 ∧ max ≤ 0)`, return `[]`
when no cell has a crossing, and otherwise trace contours. -/
def marchingSquares (f : Point → ℝ) (bd : Bounds) (res : ℕ) : List (List Point) :=
  let grid := msGrid f bd res
  let allSamples := grid.flatten
  let minSDF := listMin allSamples
  let maxSDF := listMax allSamples
  if (0 ≤ minSDF ∧ 0 ≤ maxSDF) ∨ (minSDF ≤ 0 ∧ maxSDF ≤ 0) then []
  else
    let cells := cellCrossings bd res grid
    let cellsWithCrossings := (List.range res).foldl (fun acc j =>
      (List.range res).foldl (fun acc i =>
        if ((cells.getD j []).getD i []).isEmpty then acc else acc + 1) acc) 0
    if cellsWithCrossings = 0 then []
    else traceCells cells res (msDx bd res / 2)

end

/-! ### Dependency map and cycle guard (`src/state/stateStore.js`)

`dependencyMap` is a finite map from a node id to its list of child ids,
modelled as an association list whose lookup returns the entry most recently
`set`.  `_hasCycle(startId, visited, stack)` is the recursive DFS of the
source with its two shared mutable sets, modelled by threading the two lists
through the recursion; the recursion itself is driven by explicit fuel, with
`none` standing for fuel exhaustion — the adequacy theorem below shows the
chosen fuel is never exhausted, which is the termination statement for the
source. -/

abbrev DepMap : Type := List (ℕ × List ℕ)

/-- `dependencyMap.get(id) || []`. -/
def getDep (m : DepMap) (id : ℕ) : List ℕ :=
  match m.find? (fun e => e.1 = id) with
  | some e => e.2
  | none => []

/-- `_updateDependencies(shapeId, childIds)`: `Map.set`, replacing any
previous entry for the key.  The representation order never influences
`getDep`. -/
def setDep (m : DepMap) (shapeId : ℕ) (childIds : List ℕ) : DepMap :=
  (shapeId, childIds) :: m.filter (fun e => e.1 ≠ shapeId)

mutual

/-- `_hasCycle(startId, visited, stack)` with explicit fuel: found on the
stack means a cycle; found visited means already explored; otherwise mark,
descend into the children, and unmark the stack entry on a negative
answer. -/
def hasCycleF (m : DepMap) : ℕ → ℕ → List ℕ → List ℕ → Option Bool × List ℕ × List ℕ
  | 0, _, visited, stack => (none, visited, stack)
  | fuel + 1, startId, visited, stack =>
      if startId ∈ stack then (some true, visited, stack)
      else if startId ∈ visited then (some false, visited, stack)
      else
        match loopF m fuel (getDep m startId) (startId :: visited) (startId :: stack) with
        | (some false, v, st) => (some false, v, st.erase startId)
        | r => r
termination_by fuel => (fuel, 0)

/-- The `for (const childId of ...)` loop of `_hasCycle`: recurse into each
child in order, short-circuiting on the first `true`. -/
def loopF (m : DepMap) : ℕ → List ℕ → List ℕ → List ℕ → Option Bool × List ℕ × List ℕ
  | _, [], visited, stack => (some false, visited, stack)
  | fuel, childId :: rest, visited, stack =>
      match hasCycleF m fuel childId visited stack with
      | (some false, v, st) => loopF m fuel rest v st
      | r => r
termination_by fuel cs => (fuel, cs.length + 1)

end

/-- Every node id mentioned by the map, plus the start id: an upper bound on
what the DFS can visit. -/
def depMapUniverse (m : DepMap) (start : ℕ) : List ℕ :=
  start :: m.foldr (fun e acc => e.1 :: e.2 ++ acc) []

/-- `stateStore._hasCycle(startId)` as called by `triggerVisualUpdate`:
fresh empty sets and enough fuel for every node of the map. -/
def hasCycle (m : DepMap) (start : ℕ) : Option Bool :=
  (hasCycleF m ((depMapUniverse m start).length + 1) start [] []).1

/-- `triggerVisualUpdate(shapeId)`: abort (invoking no callback) when a
cycle is detected, otherwise invoke every registered callback; the result is
the list of callbacks invoked. -/
def triggerVisualUpdate {α : Type} (m : DepMap) (callbacks : List α) (shapeId : ℕ) :
    List α :=
  if hasCycle m shapeId = some true then [] else callbacks

/-- One dependency edge: `b` is a child of `a` in the map. -/
def dEdge (m : DepMap) (a b : ℕ) : Prop := b ∈ getDep m a

/-- Reachability along dependency edges (zero or more steps). -/
def Reaches (m : DepMap) : ℕ → ℕ → Prop := Relation.ReflTransGen (dEdge m)

/-- The subgraph reachable from `start` contains a directed cycle. -/
def reachableCycle (m : DepMap) (start : ℕ) : Prop :=
  ∃ z, Reaches m start z ∧ Relation.TransGen (dEdge m) z z

/-- The black nodes of the DFS: visited and no longer on the stack. -/
def dfsBlacks (visited stack : List ℕ) : Finset ℕ :=
  visited.toFinset \ stack.toFinset

/-- A node set closed under dependency edges. -/
def dfsClosed (m : DepMap) (B : Finset ℕ) : Prop :=
  ∀ x ∈ B, ∀ y ∈ getDep m x, y ∈ B

/-- No directed cycle passes through the given node set. -/
def dfsAcyc (m : DepMap) (B : Finset ℕ) : Prop :=
  ∀ z ∈ B, ¬ Relation.TransGen (dEdge m) z z

/-- Modelled from the spec: the corner pairs that are the geometric
endpoints of each cell edge, from the claim text — bottom edge corners
bottom-left and bottom-right, right edge bottom-right and top-right, top
edge top-right and top-left, left edge top-left and bottom-left.  This is
the reference against which the `cornersTable` of the source is compared. -/
def specEdgeCorners : ℕ → ℕ × ℕ
  | 0 => (0, 1)
  | 1 => (1, 2)
  | 2 => (2, 3)
  | 3 => (3, 0)
  | _ => (0, 0)

/-- Modelled from the spec: the crossing point demanded by the claim — the
linear interpolation `t = v1 / (v1 - v2)` where `v1`, `v2` are the field
values at the two endpoints of the edge, placed with `interpolate`. -/
noncomputable def specCrossingPoint (bd : Bounds) (res : ℕ) (edge i j : ℕ)
    (values : List ℝ) : Point :=
  let c := specEdgeCorners edge
  interpolate bd res edge i j (values.getD c.1 0) (values.getD c.2 0)

/-! ## Helper lemmas -/

theorem Point.ext_xy {p q : Point} (hx : p.x = q.x) (hy : p.y = q.y) : p = q := by
  cases p; cases q; simp_all

theorem calculateSDFOffset_preserves (n : SchurNode) :
    (calculateSDFOffset n).id = n.id ∧ (calculateSDFOffset n).T = n.T ∧
      (calculateSDFOffset n).Tinv = n.Tinv ∧
      (calculateSDFOffset n).needsUpdate = n.needsUpdate := by
  unfold calculateSDFOffset
  split <;> simp

theorem initComp_id (n : SchurNode) : (initComp n).id = n.id := by
  unfold initComp
  split
  · rfl
  split
  · rfl
  simp only []
  split
  · simp
  · simp [(calculateSDFOffset_preserves _).1]

theorem erase_append_singleton (cs : List ℕ) (a : ℕ) (h : a ∉ cs) :
    (cs ++ [a]).erase a = cs := by
  rw [List.erase_append_right _ h]
  simp

/-! ## Claim C9 -/

/-- C9: for every affine matrix with nonzero determinant and every point,
applying `invertAffine M` to the image of the point under `M` recovers the
point exactly over the reals. -/
theorem claim_C9 (M : Affine) (p : Point) (h : determinant M ≠ 0) :
    applyAffineToPoint (applyAffineToPoint p M) (invertAffine M) = p := by
  unfold determinant at h
  unfold applyAffineToPoint invertAffine determinant
  apply Point.ext_xy <;> (simp only []; field_simp; ring)

theorem claim_C9_witness :
    applyAffineToPoint (applyAffineToPoint ⟨1, 2⟩ ⟨2, 0, 0, 1, 3, 4⟩)
      (invertAffine ⟨2, 0, 0, 1, 3, 4⟩) = ⟨1, 2⟩ :=
  claim_C9 ⟨2, 0, 0, 1, 3, 4⟩ ⟨1, 2⟩ (by norm_num [determinant])

/-! ## Claim C2 -/

/-- C2 as stated is false: the inequality `weightedRUnion a b p ≤ min a b`
fails at `a = -1`, `b = 1/2`, `p = 3`.  There `a^p + b^p = -7/8` and the
real power of the negative base makes the blended value exceed the
minimum. -/
theorem claim_C2_counterexample :
    ¬ weightedRUnion (-1) (1 / 2) 3 ≤ min (-1 : ℝ) (1 / 2) := by
  have h3 : ¬ (3 : ℝ) ≤ 0 := by norm_num
  rw [weightedRUnion, if_neg h3]
  have hb : ((-1 : ℝ)) ^ ((3 : ℝ)) = -1 := by
    rw [show ((3 : ℝ)) = ((3 : ℕ) : ℝ) by norm_num, Real.rpow_natCast]
    norm_num
  have hc : ((1 / 2 : ℝ)) ^ ((3 : ℝ)) = 1 / 8 := by
    rw [show ((3 : ℝ)) = ((3 : ℕ) : ℝ) by norm_num, Real.rpow_natCast]
    norm_num
  rw [hb, hc]
  have hsum : (-1 : ℝ) + 1 / 8 = -(7 / 8) := by norm_num
  rw [hsum]
  have hneg : (-(7 / 8) : ℝ) < 0 := by norm_num
  rw [Real.rpow_def_of_neg hneg]
  have hlog : Real.log (-(7 / 8) : ℝ) = Real.log (7 / 8) := Real.log_neg_eq_log _
  have hcos : Real.cos (1 / 3 * Real.pi) = 1 / 2 := by
    rw [show (1 / 3 * Real.pi : ℝ) = Real.pi / 3 by ring, Real.cos_pi_div_three]
  rw [hlog, hcos]
  have hexp : Real.exp (Real.log (7 / 8) * (1 / 3)) < 1 := by
    rw [Real.exp_lt_one_iff]
    have : Real.log (7 / 8 : ℝ) < 0 := Real.log_neg (by norm_num) (by norm_num)
    nlinarith
  have hpos : 0 < Real.exp (Real.log (7 / 8) * (1 / 3)) := Real.exp_pos _
  have hmin : min (-1 : ℝ) (1 / 2) = -1 := by norm_num
  rw [hmin]
  nlinarith

/-- C2 amended: the `p ≤ 0` fallback and the closed form are as claimed for
all real inputs, and the bound `weightedRUnion a b p ≤ min a b` holds for
every `p > 0` provided both arguments are nonnegative (it can fail when an
argument is negative). -/
theorem claim_C2_amended (a b p : ℝ) :
    (p ≤ 0 → weightedRUnion a b p = min a b) ∧
    (0 < p → weightedRUnion a b p = a + b - (a ^ p + b ^ p) ^ (1 / p)) ∧
    (0 < p → 0 ≤ a → 0 ≤ b → weightedRUnion a b p ≤ min a b) := by
  refine ⟨fun h => by rw [weightedRUnion, if_pos h],
    fun h => by rw [weightedRUnion, if_neg (not_le.mpr h)],
    fun hp ha hb => ?_⟩
  rw [weightedRUnion, if_neg (not_le.mpr hp)]
  have hmaxpow : (max a b) ^ p ≤ a ^ p + b ^ p := by
    rcases max_cases a b with ⟨h1, _⟩ | ⟨h1, _⟩ <;> rw [h1]
    · have : (0 : ℝ) ≤ b ^ p := Real.rpow_nonneg hb p
      linarith
    · have : (0 : ℝ) ≤ a ^ p := Real.rpow_nonneg ha p
      linarith
  have hmaxnn : (0 : ℝ) ≤ max a b := le_max_of_le_left ha
  have hid : ((max a b) ^ p) ^ (1 / p) = max a b := by
    rw [← Real.rpow_mul hmaxnn, mul_one_div, div_self (ne_of_gt hp), Real.rpow_one]
  have hmono : ((max a b) ^ p) ^ (1 / p) ≤ (a ^ p + b ^ p) ^ (1 / p) :=
    Real.rpow_le_rpow (Real.rpow_nonneg hmaxnn p) hmaxpow (by positivity)
  rw [hid] at hmono
  have hsplit : min a b + max a b = a + b := min_add_max a b
  linarith

theorem claim_C2_witness : weightedRUnion 1 2 3 ≤ min (1 : ℝ) 2 :=
  (claim_C2_amended 1 2 3).2.2 (by norm_num) (by norm_num) (by norm_num)

/-! ## Claim C1 -/

/-- C1: evaluation of `createCompositeSDF` for `difference` at the failing
input.  With constant primitives `[1, -5, 0]` and `p = 0` the source skips
`primitives[1]` entirely (the loop guard `i > 1` excludes index 1 while the
`difference` arm excludes the other branch) and returns `1`, while the fold
the claim specifies, which subtracts every later primitive from the
accumulated base, returns `5`. -/
theorem claim_C1_failing :
    createCompositeSDF
        [Prim.blend fun _ => 1, Prim.blend fun _ => -5, Prim.blend fun _ => 0]
        0 .difference ⟨0, 0⟩ = 1 ∧
      weightedRDifference (weightedRDifference 1 (-5) 0) 0 0 = 5 := by
  constructor
  · simp [createCompositeSDF, compositeLoop, Prim.sdf, weightedRDifference,
      weightedRIntersection]
  · norm_num [weightedRDifference, weightedRIntersection]

/-! ## Claim C10 -/

theorem makeAffine_det (θ s : ℝ) (t : Point) :
    determinant (makeAffine θ s t) = s ^ 2 := by
  simp only [determinant, makeAffine]
  linear_combination s ^ 2 * Real.sin_sq_add_cos_sq θ

theorem makeAffine_clamped_invertible (θ s : ℝ) (t : Point) :
    isInvertible (makeAffine θ (max |s| 0.0001) t) := by
  unfold isInvertible numberEpsilon
  rw [makeAffine_det]
  have h1 : (0.0001 : ℝ) ≤ max |s| 0.0001 := le_max_right _ _
  have h2 : (0.0001 : ℝ) ^ 2 ≤ (max |s| 0.0001) ^ 2 := by nlinarith
  rw [abs_of_nonneg (sq_nonneg _)]
  nlinarith

/-- C10: `makeAffine` with rotation and uniform scale `s` has determinant
exactly `s ^ 2`; because `_initializeComposition` clamps the scale to
`max |s| 0.0001` before building `T`, the built matrix always satisfies
`isInvertible`, so the identity-matrix fallback branch is never taken and
the stored transform is always the clamped `makeAffine` matrix. -/
theorem claim_C10 :
    (∀ (θ s : ℝ) (t : Point), determinant (makeAffine θ s t) = s ^ 2) ∧
    (∀ (θ s : ℝ) (t : Point), isInvertible (makeAffine θ (max |s| 0.0001) t)) ∧
    (∀ n : SchurNode, n.needsUpdate = true → n.baseShapes ≠ [] →
      (initComp n).T =
        some (makeAffine n.rotation (max |n.scale| 0.0001) n.position)) := by
  refine ⟨makeAffine_det, makeAffine_clamped_invertible, fun n h1 h2 => ?_⟩
  unfold initComp
  rw [if_neg h2, if_neg (by simp [h1])]
  simp only []
  have hinv := makeAffine_clamped_invertible n.rotation n.scale n.position
  rw [if_neg (not_not_intro hinv)]
  split
  · simp
  · simp [(calculateSDFOffset_preserves _).2.1]

theorem claim_C10_witness :
    (initComp ⟨1, 0, 2, ⟨0, 0⟩, [.union], [8], .sequential,
        [Prim.seg ⟨0, 0⟩ ⟨1, 0⟩], [], none, none, true, 1, 0, []⟩).T =
      some (makeAffine 0 (max |(2 : ℝ)| 0.0001) ⟨0, 0⟩) :=
  claim_C10.2.2 _ rfl (by simp)

/-! ## Claim C3 -/

/-- C3 amended: for a clean node with a non-empty inner shape list, a point
whose evaluation misses the cycle guard, and a present inverse transform,
`computeSDF` returns the inner SDF at the point obtained by applying the
linear part of `T⁻¹` transposed — `x' = a x + c y + tx`, `y' = b x + d y +
ty`, with the roles of `b` and `c` swapped relative to the canonical
`applyAffineToPoint` — divided by the scale factor, minus `0.5`; the call
stack is returned exactly as it was passed. -/
theorem claim_C3_amended (n : SchurNode) (inner : Prim) (rest : List Prim)
    (pt : Point) (cs : List ℕ) (t : ℝ) (d : ℕ) (M : Affine)
    (hclean : n.needsUpdate = false) (hsh : n.shapes = inner :: rest)
    (hguard : n.id ∉ cs) (hT : n.Tinv = some M) :
    n.computeSDF pt cs t d =
      (some ((inner.sdf ⟨M.a * pt.x + M.c * pt.y + M.tx,
          M.b * pt.x + M.d * pt.y + M.ty⟩ / n.scaleFactor - 0.5 : ℝ) : EReal), cs) := by
  unfold SchurNode.computeSDF
  rw [hclean]
  simp only [Bool.false_eq_true, if_false, hsh, hT]
  rw [if_neg hguard, erase_append_singleton cs n.id hguard]

theorem claim_C3_witness :
    SchurNode.computeSDF
        ⟨7, 0, 1, ⟨0, 0⟩, [.union], [8], .sequential, [], [],
          some identityAffine, some ⟨1, 1, 0, 1, 0, 0⟩, false, 1, 0,
          [Prim.blend fun p => p.x]⟩ ⟨0, 1⟩ [] 0 0 =
      (some ((Prim.sdf (Prim.blend fun p => p.x)
          ⟨(1 : ℝ) * 0 + 0 * 1 + 0, 1 * 0 + 1 * 1 + 0⟩ / 1 - 0.5 : ℝ) : EReal),
        ([] : List ℕ)) :=
  claim_C3_amended _ _ _ _ _ _ _ _ rfl rfl (by simp) rfl

/-- C3 as stated is false: at the node whose `T⁻¹` is the shear
`{a: 1, b: 1, c: 0, d: 1}` and the point `(0, 1)`, the canonical evaluation
of `T⁻¹` sends the point to `(1, 1)` and the claimed result would be
`1 / 1 - 0.5 = 0.5`, but the source computes the transformed point as
`(0, 1)` and returns `-0.5`. -/
theorem claim_C3_counterexample :
    (SchurNode.computeSDF
        ⟨7, 0, 1, ⟨0, 0⟩, [.union], [8], .sequential, [], [],
          some identityAffine, some ⟨1, 1, 0, 1, 0, 0⟩, false, 1, 0,
          [Prim.blend fun p => p.x]⟩ ⟨0, 1⟩ [] 0 0).1 ≠
      some ((Prim.sdf (Prim.blend fun p => p.x)
          (applyAffineToPoint ⟨0, 1⟩ ⟨1, 1, 0, 1, 0, 0⟩) / 1 - 0.5 : ℝ) : EReal) := by
  unfold SchurNode.computeSDF applyAffineToPoint
  norm_num [Prim.sdf]
  rw [← EReal.coe_neg]
  rw [EReal.coe_eq_coe_iff]
  norm_num

/-! ## Claim C4 -/

/-- C4 amended: when the own id is already on the call stack,
`SchurComposition.computeSDF` returns `+Infinity` with the call stack
unchanged; `ComplexShape2D.computeSDF` instead returns its base SDF — the
distance to its edge, a finite value — without recursing into its blend
primitives. -/
theorem claim_C4_amended :
    (∀ (n : SchurNode) (pt : Point) (cs : List ℕ) (t : ℝ) (d : ℕ),
      n.id ∈ cs → n.computeSDF pt cs t d = (some ⊤, cs)) ∧
    (∀ (s : Shape2D) (pt : Point) (cs : List ℕ) (t : ℝ) (d : ℕ),
      s.id ∈ cs → s.computeSDF pt cs t d = ((s.calculateBaseSDF pt t d : ℝ) : EReal)) := by
  constructor
  · intro n pt cs t d hm
    unfold SchurNode.computeSDF
    have hid : (if n.needsUpdate then initComp n else n).id = n.id := by
      split
      · exact initComp_id n
      · rfl
    rcases hsh : (if n.needsUpdate then initComp n else n).shapes with _ | ⟨shape, rest⟩
    · simp [hsh]
    · simp only [hsh]
      rw [if_pos (hid ▸ hm)]
  · intro s pt cs t d hm
    unfold Shape2D.computeSDF
    rw [if_pos hm]

theorem claim_C4_witness :
    SchurNode.computeSDF
        ⟨5, 0, 1, ⟨0, 0⟩, [.union], [8], .sequential, [], [],
          some identityAffine, some identityAffine, false, 1, 0, []⟩
        ⟨0, 0⟩ [5] 0 0 = (some ⊤, [5]) ∧
      Shape2D.computeSDF ⟨3, ⟨0, 0⟩, ⟨1, 0⟩, [], .union, 8, none, none⟩
          ⟨0, 0⟩ [3] 0 0 =
        ((Shape2D.calculateBaseSDF ⟨3, ⟨0, 0⟩, ⟨1, 0⟩, [], .union, 8, none, none⟩
          ⟨0, 0⟩ 0 0 : ℝ) : EReal) :=
  ⟨claim_C4_amended.1 _ _ _ _ _ (by simp), claim_C4_amended.2 _ _ _ _ _ (by simp)⟩

/-- C4 as stated is false for `ComplexShape2D`: with its id on the call
stack it returns the finite distance to its edge, never `+Infinity`. -/
theorem claim_C4_counterexample :
    Shape2D.computeSDF ⟨3, ⟨0, 0⟩, ⟨1, 0⟩, [], .union, 8, none, none⟩
      ⟨0, 0⟩ [3] 0 0 ≠ ⊤ := by
  unfold Shape2D.computeSDF
  simp

/-! ## Claim C6 -/

theorem createBalanced_isSome (ops : List Op) (ws : List ℝ) (shapes : List Prim)
    (start e : ℕ) (h1 : start ≤ e) (h2 : e < shapes.length) :
    (createBalanced ops ws shapes start e).isSome := by
  unfold createBalanced
  rw [if_neg (by omega)]
  by_cases hse : start = e
  · rw [if_pos hse]
    simp only [Option.isSome_iff_exists]
    have : start < shapes.length := by omega
    exact ⟨_, (List.get?_eq_get this)⟩
  · rw [if_neg hse]
    have hL := createBalanced_isSome ops ws shapes start ((start + e) / 2)
      (by omega) (by omega)
    have hR := createBalanced_isSome ops ws shapes ((start + e) / 2 + 1) e
      (by omega) h2
    simp only []
    rcases hl : createBalanced ops ws shapes start ((start + e) / 2) with _ | l
    · rw [hl] at hL
      simp at hL
    · rcases hr : createBalanced ops ws shapes ((start + e) / 2 + 1) e with _ | r
      · simp
      · simp
termination_by e - start
decreasing_by
  all_goals omega

theorem blendInBlendSpace_isSome (ops : List Op) (ws : List ℝ) (strat : Strategy)
    (ts : List Prim) (h : ts ≠ []) : (blendInBlendSpace ops ws strat ts).isSome := by
  match ts with
  | [] => exact absurd rfl h
  | [s] => simp [blendInBlendSpace]
  | s1 :: s2 :: rest =>
      unfold blendInBlendSpace
      cases strat
      · simp [createSequential]
      · exact createBalanced_isSome ops ws _ 0 (s1 :: s2 :: rest).length.pred
          (by simp) (by simp [Nat.pred_lt])
      · simp [createNested]

theorem cloneAndTransform_ne_nil (T : Affine) (shapes : List Prim)
    (vA vB : Point) (h : Prim.seg vA vB ∈ shapes) :
    cloneAndTransform T shapes ≠ [] := by
  have : Prim.seg (applyAffineToPoint vA T) (applyAffineToPoint vB T) ∈
      cloneAndTransform T shapes :=
    List.mem_filterMap.mpr ⟨_, h, rfl⟩
  exact List.ne_nil_of_mem this

/-- C6 amended: `updateParameters` recomposes eagerly.  When a provided
field changes the node, `updateParameters` marks the node dirty and calls
`_initializeComposition` before returning, so if the merged node still has a
line-segment base shape the returned node is already recomposed and clean —
it is not left dirty for the next `computeSDF` or `createObject` call. -/
theorem claim_C6_amended (n : SchurNode) (p : UpdateParams)
    (hch : (mergeParams n p).2 = true)
    (hseg : ∃ vA vB, Prim.seg vA vB ∈ (mergeParams n p).1.baseShapes) :
    (updateParameters n p).2 = true ∧
      ((updateParameters n p).1).needsUpdate = false := by
  obtain ⟨vA, vB, hmem⟩ := hseg
  unfold updateParameters
  simp only []
  rw [hch]
  simp only [if_true, true_and]
  unfold initComp
  rw [if_neg (by simpa using List.ne_nil_of_mem hmem), if_neg (by simp)]
  simp only []
  split
  · rename_i heq
    have hne : ∀ T, cloneAndTransform T (mergeParams n p).1.baseShapes ≠ [] :=
      fun T => cloneAndTransform_ne_nil T _ vA vB hmem
    exact absurd heq
      (Option.ne_none_iff_isSome.mpr (blendInBlendSpace_isSome _ _ _ _ (hne _)))
  · rfl

theorem mergeParams_rot_example :
    mergeParams
      ⟨1, 0, 1, ⟨0, 0⟩, [.union], [8], .sequential, [Prim.seg ⟨0, 0⟩ ⟨1, 0⟩], [],
        some identityAffine, some identityAffine, false, 1, 0,
        [Prim.seg ⟨0, 0⟩ ⟨1, 0⟩]⟩
      ⟨some 1, none, none, none, none, none, none⟩ =
    (⟨1, 1, 1, ⟨0, 0⟩, [.union], [8], .sequential, [Prim.seg ⟨0, 0⟩ ⟨1, 0⟩], [],
        some identityAffine, some identityAffine, false, 1, 0,
        [Prim.seg ⟨0, 0⟩ ⟨1, 0⟩]⟩, true) := by
  unfold mergeParams
  simp only []
  rw [if_pos (by norm_num : (1 : ℝ) ≠ 0)]

theorem claim_C6_witness :
    (updateParameters
        ⟨1, 0, 1, ⟨0, 0⟩, [.union], [8], .sequential, [Prim.seg ⟨0, 0⟩ ⟨1, 0⟩], [],
          some identityAffine, some identityAffine, false, 1, 0,
          [Prim.seg ⟨0, 0⟩ ⟨1, 0⟩]⟩
        ⟨some 1, none, none, none, none, none, none⟩).2 = true ∧
      ((updateParameters
        ⟨1, 0, 1, ⟨0, 0⟩, [.union], [8], .sequential, [Prim.seg ⟨0, 0⟩ ⟨1, 0⟩], [],
          some identityAffine, some identityAffine, false, 1, 0,
          [Prim.seg ⟨0, 0⟩ ⟨1, 0⟩]⟩
        ⟨some 1, none, none, none, none, none, none⟩).1).needsUpdate = false :=
  claim_C6_amended _ _
    (by rw [mergeParams_rot_example])
    ⟨⟨0, 0⟩, ⟨1, 0⟩, by rw [mergeParams_rot_example]; simp⟩

/-- C6 as stated is false: after a rotation change on a clean
one-base-shape node, the returned node has already been recomposed inside
`updateParameters` — its dirty flag is cleared, so nothing is left for the
next `computeSDF` or `createObject` call to recompute. -/
theorem claim_C6_counterexample :
    ((updateParameters
        ⟨1, 0, 1, ⟨0, 0⟩, [.union], [8], .sequential, [Prim.seg ⟨0, 0⟩ ⟨1, 0⟩], [],
          some identityAffine, some identityAffine, false, 1, 0,
          [Prim.seg ⟨0, 0⟩ ⟨1, 0⟩]⟩
        ⟨some 1, none, none, none, none, none, none⟩).1).needsUpdate = false := by
  unfold updateParameters
  simp only []
  rw [mergeParams_rot_example]
  simp only [if_true]
  unfold initComp
  rw [if_neg (by simp), if_neg (by simp)]
  simp only []
  rw [if_neg (not_not_intro (makeAffine_clamped_invertible 1 1 ⟨0, 0⟩))]
  have hct : cloneAndTransform (makeAffine 1 (max |(1 : ℝ)| 0.0001) ⟨0, 0⟩)
      [Prim.seg ⟨0, 0⟩ ⟨1, 0⟩] =
      [Prim.seg (applyAffineToPoint ⟨0, 0⟩ (makeAffine 1 (max |(1 : ℝ)| 0.0001) ⟨0, 0⟩))
        (applyAffineToPoint ⟨1, 0⟩ (makeAffine 1 (max |(1 : ℝ)| 0.0001) ⟨0, 0⟩))] := by
    simp [cloneAndTransform]
  rw [hct]
  simp [blendInBlendSpace]

/-! ## Claim C7 -/

/-- C7: evaluation of the crossing computation at the failing input.  On the
unit cell with corner values `-1` (bottom-left), `1` (bottom-right), `1`
(top-right), `3` (top-left) — case 1, edge pair left-bottom — the source
interpolates both crossings from the corner pair `(0, 3)` (bottom-left and
top-left values) and emits `(0, 3/4)` on the left edge and `(1/4, 0)` on
the bottom edge; the interpolation the claim specifies uses the edge
endpoints — top-left/bottom-left for the left edge and
bottom-left/bottom-right for the bottom edge — and places the crossings at
`(0, 1/4)` and `(1/2, 0)`. -/
theorem claim_C7_failing :
    cellEdges ⟨0, 0, 1, 1⟩ 1 [[-1, 1], [3, 1]] 0 0 =
        [(⟨0, 3 / 4⟩, ⟨1 / 4, 0⟩)] ∧
      specCrossingPoint ⟨0, 0, 1, 1⟩ 1 3 0 0 [-1, 1, 1, 3] = ⟨0, 1 / 4⟩ ∧
      specCrossingPoint ⟨0, 0, 1, 1⟩ 1 0 0 0 [-1, 1, 1, 3] = ⟨1 / 2, 0⟩ ∧
      (⟨0, 3 / 4⟩ : Point) ≠ ⟨0, 1 / 4⟩ ∧ (⟨1 / 4, 0⟩ : Point) ≠ ⟨1 / 2, 0⟩ := by
  norm_num [cellEdges, gridVal, cellCaseIndex, edgeTable, cornersTable, interpolate,
    msDx, msDy, specCrossingPoint, specEdgeCorners, Point.mk.injEq]

/-! ## Claim C8 -/

theorem foldl_min_const (c : ℝ) : ∀ xs : List ℝ, (∀ x ∈ xs, x = c) →
    xs.foldl min c = c := by
  intro xs
  induction xs with
  | nil => simp
  | cons y ys ih =>
      intro h
      have hy : y = c := h y (by simp)
      simp only [List.foldl_cons, hy, min_self]
      exact ih fun x hx => h x (by simp [hx])

theorem foldl_max_const (c : ℝ) : ∀ xs : List ℝ, (∀ x ∈ xs, x = c) →
    xs.foldl max c = c := by
  intro xs
  induction xs with
  | nil => simp
  | cons y ys ih =>
      intro h
      have hy : y = c := h y (by simp)
      simp only [List.foldl_cons, hy, max_self]
      exact ih fun x hx => h x (by simp [hx])

theorem listMin_const (c : ℝ) (l : List ℝ) (h : ∀ x ∈ l, x = c) (hne : l ≠ []) :
    listMin l = c := by
  cases l with
  | nil => exact absurd rfl hne
  | cons y ys =>
      have hy : y = c := h y (by simp)
      simp only [listMin, hy]
      exact foldl_min_const c ys fun x hx => h x (by simp [hx])

theorem listMax_const (c : ℝ) (l : List ℝ) (h : ∀ x ∈ l, x = c) (hne : l ≠ []) :
    listMax l = c := by
  cases l with
  | nil => exact absurd rfl hne
  | cons y ys =>
      have hy : y = c := h y (by simp)
      simp only [listMax, hy]
      exact foldl_max_const c ys fun x hx => h x (by simp [hx])

theorem msGrid_flatten_mem (f : Point → ℝ) (bd : Bounds) (res : ℕ) :
    ∀ x ∈ (msGrid f bd res).flatten, ∃ pt, x = f pt := by
  intro x hx
  rw [List.mem_flatten] at hx
  obtain ⟨row, hrow, hxr⟩ := hx
  simp only [msGrid, List.mem_map, List.mem_range] at hrow
  obtain ⟨j, _, rfl⟩ := hrow
  simp only [List.mem_map, List.mem_range] at hxr
  obtain ⟨i, _, rfl⟩ := hxr
  exact ⟨_, rfl⟩

theorem msGrid_flatten_ne_nil (f : Point → ℝ) (bd : Bounds) (res : ℕ) :
    (msGrid f bd res).flatten ≠ [] := by
  intro h
  rw [List.flatten_eq_nil_iff] at h
  have hrow : ((List.range (res + 1)).map fun (i : ℕ) =>
      f ⟨bd.xmin + (i : ℝ) * msDx bd res, bd.ymin + ((0 : ℕ) : ℝ) * msDy bd res⟩) ∈
      msGrid f bd res := by
    unfold msGrid
    rw [List.mem_map]
    exact ⟨0, List.mem_range.mpr (Nat.succ_pos res), rfl⟩
  have := h _ hrow
  rw [List.map_eq_nil_iff, List.range_eq_nil] at this
  exact Nat.succ_ne_zero res this

/-- C8: `marchingSquares` samples a `(resolution + 1)²` grid, returns `[]`
whenever the sampled minimum and maximum share a sign (the source condition
`(min ≥ 0 ∧ max ≥ 0) ∨ (min ≤ 0 ∧ max ≤ 0)`), and in particular returns
`[]` for every constant field, strictly positive or strictly negative
constants included. -/
theorem claim_C8 (f : Point → ℝ) (bd : Bounds) (res : ℕ) :
    (msGrid f bd res).length = res + 1 ∧
    (∀ row ∈ msGrid f bd res, row.length = res + 1) ∧
    (((0 ≤ listMin (msGrid f bd res).flatten ∧ 0 ≤ listMax (msGrid f bd res).flatten) ∨
        (listMin (msGrid f bd res).flatten ≤ 0 ∧ listMax (msGrid f bd res).flatten ≤ 0)) →
      marchingSquares f bd res = []) ∧
    (∀ c : ℝ, (∀ pt, f pt = c) → marchingSquares f bd res = []) := by
  refine ⟨by unfold msGrid; rw [List.length_map, List.length_range], ?_, ?_, ?_⟩
  · intro row hrow
    unfold msGrid at hrow
    rw [List.mem_map] at hrow
    obtain ⟨j, _, rfl⟩ := hrow
    rw [List.length_map, List.length_range]
  · intro h
    unfold marchingSquares
    simp only []
    rw [if_pos h]
  · intro c hf
    have hall : ∀ x ∈ (msGrid f bd res).flatten, x = c := by
      intro x hx
      obtain ⟨pt, rfl⟩ := msGrid_flatten_mem f bd res x hx
      exact hf pt
    have hmin := listMin_const c _ hall (msGrid_flatten_ne_nil f bd res)
    have hmax := listMax_const c _ hall (msGrid_flatten_ne_nil f bd res)
    unfold marchingSquares
    simp only []
    rw [if_pos ?_]
    rw [hmin, hmax]
    rcases le_total 0 c with hc | hc
    · exact Or.inl ⟨hc, hc⟩
    · exact Or.inr ⟨hc, hc⟩

theorem claim_C8_witness : marchingSquares (fun _ => 1) ⟨0, 0, 1, 1⟩ 2 = [] :=
  (claim_C8 (fun _ => 1) ⟨0, 0, 1, 1⟩ 2).2.2.2 1 fun _ => rfl

/-! ## Claim C5

The DFS correctness development: the state lemma (visited only grows; a
negative answer restores the stack), the well-formedness and adequacy lemma
(with enough fuel the search never runs out), soundness (a positive answer
exhibits a reachable cycle) and completeness (a negative answer leaves a
successor-closed, acyclic black set). -/

theorem dfs_state (m : DepMap) : ∀ fuel : ℕ,
    (∀ s v st, v ⊆ (hasCycleF m fuel s v st).2.1 ∧
      ((hasCycleF m fuel s v st).1 = some false →
        (hasCycleF m fuel s v st).2.2 = st)) ∧
    (∀ cs v st, v ⊆ (loopF m fuel cs v st).2.1 ∧
      ((loopF m fuel cs v st).1 = some false →
        (loopF m fuel cs v st).2.2 = st)) := by
  intro fuel
  induction fuel with
  | zero =>
      constructor
      · intro s v st
        simp [hasCycleF]
      · intro cs
        induction cs with
        | nil => simp [loopF]
        | cons c rest ih =>
            intro v st
            simp [loopF, hasCycleF]
  | succ f ihf =>
      have hP : ∀ s v st, v ⊆ (hasCycleF m (f + 1) s v st).2.1 ∧
          ((hasCycleF m (f + 1) s v st).1 = some false →
            (hasCycleF m (f + 1) s v st).2.2 = st) := by
        intro s v st
        simp only [hasCycleF]
        split_ifs with h1 h2
        · simp
        · simp
        · rcases hres : loopF m f (getDep m s) (s :: v) (s :: st) with ⟨r, v', st'⟩
          have hl := ihf.2 (getDep m s) (s :: v) (s :: st)
          rw [hres] at hl
          rcases r with _ | b
          · simp only []
            exact ⟨(List.subset_cons_self s v).trans hl.1, by simp⟩
          · rcases b
            · simp only []
              refine ⟨(List.subset_cons_self s v).trans hl.1, fun _ => ?_⟩
              have hst : st' = s :: st := hl.2 rfl
              rw [hst]
              exact List.erase_cons_head s st
            · simp only []
              exact ⟨(List.subset_cons_self s v).trans hl.1, by simp⟩
      refine ⟨hP, ?_⟩
      intro cs
      induction cs with
      | nil => simp [loopF]
      | cons c rest ih =>
          intro v st
          simp only [loopF]
          rcases hres : hasCycleF m (f + 1) c v st with ⟨r, v', st'⟩
          have hc := hP c v st
          rw [hres] at hc
          rcases r with _ | b
          · simp only []
            exact ⟨hc.1, by simp⟩
          · rcases b
            · simp only []
              have hrest := ih v' st'
              refine ⟨hc.1.trans hrest.1, fun hfin => ?_⟩
              rw [hrest.2 hfin]
              exact hc.2 rfl
            · simp only []
              exact ⟨hc.1, by simp⟩

theorem dfs_fresh_card (U : Finset ℕ) (s : ℕ) (v : List ℕ)
    (hsU : s ∈ U) (hsv : s ∉ v) :
    (U \ (s :: v).toFinset).card < (U \ v.toFinset).card := by
  have hs : s ∈ U \ v.toFinset := Finset.mem_sdiff.mpr ⟨hsU, by
    rw [List.mem_toFinset]
    exact hsv⟩
  have hsub : U \ (s :: v).toFinset ⊆ (U \ v.toFinset).erase s := by
    intro x hx
    rw [List.toFinset_cons, Finset.mem_sdiff, Finset.mem_insert] at hx
    rw [Finset.mem_erase, Finset.mem_sdiff, List.mem_toFinset]
    push_neg at hx
    exact ⟨hx.2.1, hx.1, fun hm => hx.2.2 (List.mem_toFinset.mpr hm)⟩
  have h1 := Finset.card_le_card hsub
  have h2 := Finset.card_erase_of_mem hs
  have h3 : 0 < (U \ v.toFinset).card := Finset.card_pos.mpr ⟨s, hs⟩
  omega

theorem dfs_wf (m : DepMap) (U : Finset ℕ)
    (hcl : ∀ x y, y ∈ getDep m x → y ∈ U) : ∀ fuel : ℕ,
    (∀ s v st, s ∈ U → (∀ x ∈ v, x ∈ U) → (U \ v.toFinset).card < fuel →
      (hasCycleF m fuel s v st).1 ≠ none ∧
      (∀ x ∈ (hasCycleF m fuel s v st).2.1, x ∈ U)) ∧
    (∀ cs v st, (∀ c ∈ cs, c ∈ U) → (∀ x ∈ v, x ∈ U) →
      (U \ v.toFinset).card < fuel →
      (loopF m fuel cs v st).1 ≠ none ∧
      (∀ x ∈ (loopF m fuel cs v st).2.1, x ∈ U)) := by
  intro fuel
  induction fuel with
  | zero =>
      constructor
      · intro s v st _ _ hrem
        exact absurd hrem (by omega)
      · intro cs v st _ _ hrem
        exact absurd hrem (by omega)
  | succ f ihf =>
      have hP : ∀ s v st, s ∈ U → (∀ x ∈ v, x ∈ U) →
          (U \ v.toFinset).card < f + 1 →
          (hasCycleF m (f + 1) s v st).1 ≠ none ∧
          (∀ x ∈ (hasCycleF m (f + 1) s v st).2.1, x ∈ U) := by
        intro s v st hsU hvU hrem
        simp only [hasCycleF]
        split_ifs with h1 h2
        · exact ⟨by simp, hvU⟩
        · exact ⟨by simp, hvU⟩
        · have hv0U : ∀ x ∈ s :: v, x ∈ U := by
            intro x hx
            rcases List.mem_cons.mp hx with rfl | hx
            · exact hsU
            · exact hvU x hx
          have hrem0 : (U \ (s :: v).toFinset).card < f := by
            have := dfs_fresh_card U s v hsU h2
            omega
          have hl := ihf.2 (getDep m s) (s :: v) (s :: st)
            (fun c hc => hcl s c hc) hv0U hrem0
          rcases hres : loopF m f (getDep m s) (s :: v) (s :: st) with ⟨r, v', st'⟩
          rw [hres] at hl
          rcases r with _ | b
          · exact absurd rfl hl.1
          · rcases b
            · exact ⟨by simp, hl.2⟩
            · exact ⟨by simp, hl.2⟩
      refine ⟨hP, ?_⟩
      intro cs
      induction cs with
      | nil =>
          intro v st _ hvU _
          exact ⟨by simp [loopF], by simpa [loopF] using hvU⟩
      | cons c rest ih =>
          intro v st hcsU hvU hrem
          simp only [loopF]
          have hc := hP c v st (hcsU c (by simp)) hvU hrem
          have hmono := (dfs_state m (f + 1)).1 c v st
          rcases hres : hasCycleF m (f + 1) c v st with ⟨r, v', st'⟩
          rw [hres] at hc hmono
          rcases r with _ | b
          · exact absurd rfl hc.1
          · rcases b
            · simp only []
              have hremV : (U \ v'.toFinset).card < f + 1 := by
                have hsub : U \ v'.toFinset ⊆ U \ v.toFinset := by
                  intro x hx
                  rw [Finset.mem_sdiff] at hx ⊢
                  exact ⟨hx.1, fun hm => hx.2 (List.mem_toFinset.mpr
                    (hmono.1 (List.mem_toFinset.mp hm)))⟩
                have := Finset.card_le_card hsub
                omega
              exact ih v' st' (fun x hx => hcsU x (by simp [hx])) hc.2 hremV
            · simp only []
              exact ⟨by simp, hc.2⟩

theorem dfs_sound (m : DepMap) (start : ℕ) : ∀ fuel : ℕ,
    (∀ s v st, (∀ x ∈ st, Relation.TransGen (dEdge m) x s) →
      Reaches m start s →
      (hasCycleF m fuel s v st).1 = some true → reachableCycle m start) ∧
    (∀ cs v st,
      (∀ c ∈ cs, (∀ x ∈ st, Relation.TransGen (dEdge m) x c) ∧ Reaches m start c) →
      (loopF m fuel cs v st).1 = some true → reachableCycle m start) := by
  intro fuel
  induction fuel with
  | zero =>
      constructor
      · intro s v st _ _ htrue
        simp [hasCycleF] at htrue
      · intro cs v st _ htrue
        cases cs <;> simp [loopF, hasCycleF] at htrue
  | succ f ihf =>
      have hP : ∀ s v st, (∀ x ∈ st, Relation.TransGen (dEdge m) x s) →
          Reaches m start s →
          (hasCycleF m (f + 1) s v st).1 = some true → reachableCycle m start := by
        intro s v st hst hreach htrue
        simp only [hasCycleF] at htrue
        split_ifs at htrue with h1 h2
        · exact ⟨s, hreach, hst s h1⟩
        · simp at htrue
        · rcases hres : loopF m f (getDep m s) (s :: v) (s :: st) with ⟨r, v', st'⟩
          rw [hres] at htrue
          have hhyps : ∀ c ∈ getDep m s,
              (∀ x ∈ s :: st, Relation.TransGen (dEdge m) x c) ∧
                Reaches m start c := by
            intro c hc
            have hedge : dEdge m s c := hc
            constructor
            · intro x hx
              rcases List.mem_cons.mp hx with rfl | hx
              · exact Relation.TransGen.single hedge
              · exact (hst x hx).tail hedge
            · exact hreach.tail hedge
          rcases r with _ | b
          · simp at htrue
          · rcases b
            · simp at htrue
            · exact ihf.2 (getDep m s) (s :: v) (s :: st) hhyps (by rw [hres])
      refine ⟨hP, ?_⟩
      intro cs
      induction cs with
      | nil =>
          intro v st _ htrue
          simp [loopF] at htrue
      | cons c rest ih =>
          intro v st hcs htrue
          simp only [loopF] at htrue
          rcases hres : hasCycleF m (f + 1) c v st with ⟨r, v', st'⟩
          rw [hres] at htrue
          rcases r with _ | b
          · simp at htrue
          · rcases b
            · have hstEq := ((dfs_state m (f + 1)).1 c v st).2
              rw [hres] at hstEq
              have hst' : st' = st := hstEq rfl
              rw [hst'] at htrue
              exact ih v' st (fun x hx => hcs x (by simp [hx])) htrue
            · exact hP c v st (hcs c (by simp)).1 (hcs c (by simp)).2 (by rw [hres])

theorem dfsClosed_reach (m : DepMap) (B : Finset ℕ) (h : dfsClosed m B)
    {a b : ℕ} (hab : Reaches m a b) (ha : a ∈ B) : b ∈ B := by
  induction hab with
  | refl => exact ha
  | tail _ hyz ih => exact h _ ih _ hyz

theorem dfsBlacks_cons_fresh (s : ℕ) (v st : List ℕ) (hsv : s ∉ v) :
    dfsBlacks (s :: v) (s :: st) = dfsBlacks v st := by
  unfold dfsBlacks
  ext x
  simp only [Finset.mem_sdiff, List.toFinset_cons, Finset.mem_insert,
    List.mem_toFinset]
  constructor
  · rintro ⟨h1 | h1, h2⟩
    · exact absurd (Or.inl h1) h2
    · exact ⟨h1, fun hx => h2 (Or.inr hx)⟩
  · rintro ⟨h1, h2⟩
    refine ⟨Or.inr h1, ?_⟩
    rintro (rfl | hx)
    · exact hsv h1
    · exact h2 hx

theorem dfsBlacks_pop (s : ℕ) (v st : List ℕ) (hsv : s ∈ v) (hsst : s ∉ st) :
    dfsBlacks v st = insert s (dfsBlacks v (s :: st)) := by
  unfold dfsBlacks
  ext x
  simp only [Finset.mem_sdiff, Finset.mem_insert, List.toFinset_cons,
    List.mem_toFinset]
  constructor
  · rintro ⟨h1, h2⟩
    by_cases hx : x = s
    · exact Or.inl hx
    · exact Or.inr ⟨h1, fun hor => by
        rcases hor with rfl | hor
        · exact hx rfl
        · exact h2 hor⟩
  · rintro (rfl | ⟨h1, h2⟩)
    · exact ⟨hsv, hsst⟩
    · exact ⟨h1, fun hx => h2 (Or.inr hx)⟩

theorem dfs_complete (m : DepMap) : ∀ fuel : ℕ,
    (∀ s v st, dfsClosed m (dfsBlacks v st) → dfsAcyc m (dfsBlacks v st) →
      (∀ x ∈ st, x ∈ v) →
      (hasCycleF m fuel s v st).1 = some false →
      dfsClosed m (dfsBlacks (hasCycleF m fuel s v st).2.1 st) ∧
      dfsAcyc m (dfsBlacks (hasCycleF m fuel s v st).2.1 st) ∧
      (∀ x ∈ v, x ∈ (hasCycleF m fuel s v st).2.1) ∧
      s ∈ (hasCycleF m fuel s v st).2.1 ∧ s ∉ st) ∧
    (∀ cs v st, dfsClosed m (dfsBlacks v st) → dfsAcyc m (dfsBlacks v st) →
      (∀ x ∈ st, x ∈ v) →
      (loopF m fuel cs v st).1 = some false →
      dfsClosed m (dfsBlacks (loopF m fuel cs v st).2.1 st) ∧
      dfsAcyc m (dfsBlacks (loopF m fuel cs v st).2.1 st) ∧
      (∀ x ∈ v, x ∈ (loopF m fuel cs v st).2.1) ∧
      (∀ c ∈ cs, c ∈ (loopF m fuel cs v st).2.1 ∧ c ∉ st)) := by
  intro fuel
  induction fuel with
  | zero =>
      constructor
      · intro s v st _ _ _ hfalse
        simp [hasCycleF] at hfalse
      · intro cs v st hCl hAc _ hfalse
        cases cs with
        | nil =>
            simp only [loopF] at hfalse ⊢
            exact ⟨hCl, hAc, fun x hx => hx, by simp⟩
        | cons c rest => simp [loopF, hasCycleF] at hfalse
  | succ f ihf =>
      have hP : ∀ s v st, dfsClosed m (dfsBlacks v st) →
          dfsAcyc m (dfsBlacks v st) → (∀ x ∈ st, x ∈ v) →
          (hasCycleF m (f + 1) s v st).1 = some false →
          dfsClosed m (dfsBlacks (hasCycleF m (f + 1) s v st).2.1 st) ∧
          dfsAcyc m (dfsBlacks (hasCycleF m (f + 1) s v st).2.1 st) ∧
          (∀ x ∈ v, x ∈ (hasCycleF m (f + 1) s v st).2.1) ∧
          s ∈ (hasCycleF m (f + 1) s v st).2.1 ∧ s ∉ st := by
        intro s v st hCl hAc hstv hfalse
        simp only [hasCycleF] at hfalse ⊢
        split_ifs at hfalse ⊢ with h1 h2
        · simp at hfalse
        · exact ⟨hCl, hAc, fun x hx => hx, h2, h1⟩
        · rcases hres : loopF m f (getDep m s) (s :: v) (s :: st) with ⟨r, v', st'⟩
          rw [hres] at hfalse
          rcases r with _ | b
          · simp at hfalse
          · rcases b
            · -- loop returned some false
              have hB0 := dfsBlacks_cons_fresh s v st h2
              have hstv0 : ∀ x ∈ s :: st, x ∈ s :: v := by
                intro x hx
                rcases List.mem_cons.mp hx with rfl | hx
                · simp
                · exact List.mem_cons_of_mem s (hstv x hx)
              have hloop := ihf.2 (getDep m s) (s :: v) (s :: st)
                (by rw [hB0]; exact hCl) (by rw [hB0]; exact hAc) hstv0
                (by rw [hres])
              rw [hres] at hloop
              have hsv' : s ∈ v' := hloop.2.2.1 s (by simp)
              have hpop := dfsBlacks_pop s v' st hsv' h1
              have hChild : ∀ c ∈ getDep m s, c ∈ dfsBlacks v' (s :: st) := by
                intro c hc
                have := hloop.2.2.2 c hc
                unfold dfsBlacks
                rw [Finset.mem_sdiff, List.mem_toFinset, List.mem_toFinset]
                exact ⟨this.1, this.2⟩
              have hClosedNew : dfsClosed m (dfsBlacks v' st) := by
                rw [hpop]
                intro x hx y hy
                rcases Finset.mem_insert.mp hx with rfl | hx
                · exact Finset.mem_insert_of_mem (hChild y hy)
                · exact Finset.mem_insert_of_mem (hloop.1 x hx y hy)
              have hAcNew : dfsAcyc m (dfsBlacks v' st) := by
                rw [hpop]
                intro z hz hcyc
                rcases Finset.mem_insert.mp hz with hzs | hz
                · rw [hzs] at hcyc
                  obtain ⟨c, hc, hcs⟩ := Relation.TransGen.head'_iff.mp hcyc
                  have hcB : c ∈ dfsBlacks v' (s :: st) := hChild c hc
                  have hsB : s ∈ dfsBlacks v' (s :: st) :=
                    dfsClosed_reach m _ hloop.1 hcs hcB
                  unfold dfsBlacks at hsB
                  rw [Finset.mem_sdiff, List.mem_toFinset] at hsB
                  exact hsB.2 (by simp)
                · exact hloop.2.1 z hz hcyc
              refine ⟨hClosedNew, hAcNew, ?_, hsv', h1⟩
              intro x hx
              exact hloop.2.2.1 x (List.mem_cons_of_mem s hx)
            · simp at hfalse
      refine ⟨hP, ?_⟩
      intro cs
      induction cs with
      | nil =>
          intro v st hCl hAc _ hfalse
          simp only [loopF] at hfalse ⊢
          exact ⟨hCl, hAc, fun x hx => hx, by simp⟩
      | cons c rest ih =>
          intro v st hCl hAc hstv hfalse
          simp only [loopF] at hfalse ⊢
          rcases hres : hasCycleF m (f + 1) c v st with ⟨r, v', st'⟩
          rw [hres] at hfalse
          rcases r with _ | b
          · simp at hfalse
          · rcases b
            · have hstEq := ((dfs_state m (f + 1)).1 c v st).2
              rw [hres] at hstEq
              have hst' : st' = st := hstEq rfl
              rw [hst'] at hfalse ⊢
              have hcc := hP c v st hCl hAc hstv (by rw [hres])
              rw [hres] at hcc
              have hrest := ih v' st hcc.1 hcc.2.1
                (fun x hx => hcc.2.2.1 x (hstv x hx)) hfalse
              refine ⟨hrest.1, hrest.2.1, ?_, ?_⟩
              · intro x hx
                exact hrest.2.2.1 x (hcc.2.2.1 x hx)
              · intro y hy
                rcases List.mem_cons.mp hy with rfl | hy
                · exact ⟨hrest.2.2.1 y hcc.2.2.2.1, hcc.2.2.2.2⟩
                · exact hrest.2.2.2 y hy
            · simp at hfalse

theorem depMapUniverse_start (m : DepMap) (start : ℕ) :
    start ∈ depMapUniverse m start := by
  simp [depMapUniverse]

theorem depMapUniverse_closed (m : DepMap) (start : ℕ) :
    ∀ x y, y ∈ getDep m x → y ∈ depMapUniverse m start := by
  intro x y hy
  unfold getDep at hy
  rcases hfind : m.find? (fun e => e.1 = x) with _ | e
  · rw [hfind] at hy
    simp at hy
  · rw [hfind] at hy
    have hmem : e ∈ m := List.mem_of_find?_eq_some hfind
    unfold depMapUniverse
    refine List.mem_cons_of_mem _ ?_
    clear hfind
    induction m with
    | nil => cases hmem
    | cons f fs ih =>
        simp only [List.foldr_cons]
        rcases List.mem_cons.mp hmem with heq | hmem
        · rw [heq] at hy
          exact List.mem_cons_of_mem _ (List.mem_append_left _ hy)
        · exact List.mem_cons_of_mem _ (List.mem_append_right _ (ih hmem))

theorem depMapUniverse_card (m : DepMap) (start : ℕ) :
    ((depMapUniverse m start).toFinset \ ([] : List ℕ).toFinset).card <
      (depMapUniverse m start).length + 1 := by
  have h1 : (depMapUniverse m start).toFinset.card ≤ (depMapUniverse m start).length :=
    List.toFinset_card_le _
  simp only [List.toFinset_nil, Finset.sdiff_empty]
  omega

theorem getDep_two (A B : ℕ) (hAB : A ≠ B) :
    getDep (setDep (setDep [] A [B]) B [A]) A = [B] ∧
    getDep (setDep (setDep [] A [B]) B [A]) B = [A] := by
  unfold setDep getDep
  simp [List.find?, List.filter, hAB, Ne.symm hAB]

/-- C5: the DFS cycle check of the state store is total and correct — with
the chosen fuel it always returns an answer, and the answer is `true`
exactly when a directed cycle is reachable from the start id.  In
particular, for the two-node graph with edges in both directions it returns
`true` for either insertion order of the two entries, and
`triggerVisualUpdate` invokes no callback when the check reports a cycle. -/
theorem claim_C5 :
    (∀ (m : DepMap) (start : ℕ), ∃ b, hasCycle m start = some b ∧
      (b = true ↔ reachableCycle m start)) ∧
    (∀ A B : ℕ, A ≠ B →
      hasCycle (setDep (setDep [] A [B]) B [A]) A = some true ∧
      hasCycle (setDep (setDep [] B [A]) A [B]) A = some true) ∧
    (∀ (m : DepMap) (α : Type) (callbacks : List α) (shapeId : ℕ),
      hasCycle m shapeId = some true →
      triggerVisualUpdate m callbacks shapeId = []) := by
  have main : ∀ (m : DepMap) (start : ℕ), ∃ b, hasCycle m start = some b ∧
      (b = true ↔ reachableCycle m start) := by
    intro m start
    have hcl : ∀ x y, y ∈ getDep m x → y ∈ (depMapUniverse m start).toFinset := by
      intro x y hy
      rw [List.mem_toFinset]
      exact depMapUniverse_closed m start x y hy
    have hwf := (dfs_wf m (depMapUniverse m start).toFinset hcl
      ((depMapUniverse m start).length + 1)).1 start [] []
      (by rw [List.mem_toFinset]; exact depMapUniverse_start m start)
      (by simp)
      (depMapUniverse_card m start)
    unfold hasCycle
    rcases hres : hasCycleF m ((depMapUniverse m start).length + 1) start [] []
      with ⟨r, v', st'⟩
    rw [hres] at hwf
    rcases r with _ | b
    · exact absurd rfl hwf.1
    · refine ⟨b, rfl, ?_⟩
      constructor
      · intro hb
        rw [hb] at hres
        exact (dfs_sound m start ((depMapUniverse m start).length + 1)).1
          start [] [] (by simp) Relation.ReflTransGen.refl (by rw [hres])
      · intro hcyc
        by_contra hb
        have hb' : b = false := by
          cases b
          · rfl
          · exact absurd rfl hb
        rw [hb'] at hres
        have hcomp := (dfs_complete m ((depMapUniverse m start).length + 1)).1
          start [] []
          (by intro x hx; simp [dfsBlacks] at hx)
          (by intro x hx; simp [dfsBlacks] at hx)
          (by simp)
          (by rw [hres])
        rw [hres] at hcomp
        obtain ⟨z, hrz, hcycz⟩ := hcyc
        have hstartB : start ∈ dfsBlacks v' [] := by
          unfold dfsBlacks
          simp only [List.toFinset_nil, Finset.sdiff_empty, List.mem_toFinset]
          exact hcomp.2.2.2.1
        have hzB := dfsClosed_reach m _ hcomp.1 hrz hstartB
        exact hcomp.2.1 z hzB hcycz
  refine ⟨main, ?_, ?_⟩
  · intro A B hAB
    constructor
    · obtain ⟨b, hb, hiff⟩ := main (setDep (setDep [] A [B]) B [A]) A
      have hcyc : reachableCycle (setDep (setDep [] A [B]) B [A]) A := by
        have hg := getDep_two A B hAB
        have eAB : dEdge (setDep (setDep [] A [B]) B [A]) A B := by
          unfold dEdge
          rw [hg.1]
          simp
        have eBA : dEdge (setDep (setDep [] A [B]) B [A]) B A := by
          unfold dEdge
          rw [hg.2]
          simp
        exact ⟨A, Relation.ReflTransGen.refl,
          (Relation.TransGen.single eAB).tail eBA⟩
      rw [hb, hiff.mpr hcyc]
    · obtain ⟨b, hb, hiff⟩ := main (setDep (setDep [] B [A]) A [B]) A
      have hg := getDep_two B A (Ne.symm hAB)
      have hcyc : reachableCycle (setDep (setDep [] B [A]) A [B]) A := by
        have eAB : dEdge (setDep (setDep [] B [A]) A [B]) A B := by
          unfold dEdge
          rw [hg.2]
          simp
        have eBA : dEdge (setDep (setDep [] B [A]) A [B]) B A := by
          unfold dEdge
          rw [hg.1]
          simp
        exact ⟨A, Relation.ReflTransGen.refl,
          (Relation.TransGen.single eAB).tail eBA⟩
      rw [hb, hiff.mpr hcyc]
  · intro m α callbacks shapeId h
    unfold triggerVisualUpdate
    rw [if_pos h]

theorem claim_C5_witness :
    hasCycle (setDep (setDep [] 1 [2]) 2 [1]) 1 = some true ∧
      triggerVisualUpdate (setDep (setDep [] 1 [2]) 2 [1]) [42] 1 = ([] : List ℕ) :=
  ⟨(claim_C5.2.1 1 2 (by norm_num)).1,
    claim_C5.2.2 _ ℕ [42] 1 (claim_C5.2.1 1 2 (by norm_num)).1⟩

end CP
